import Mathlib

/-!
# Verification of the x-ray spectroscopy / RAG core

Shallow embedding of the algorithmic core of the repository:

* `backend/spectroscopy.py` — intensity normalization and windowed peak
  detection (`normalize_intensity`, `detect_peaks`).
* `backend/pinecone_rag.py`  — a similarity-indexed document store with
  dedup-aware insertion (`PineconeRAG.upsert_docs`) and top-k retrieval
  (`PineconeRAG.retrieve`).

Floating-point values of the source are modelled as exact rationals (`ℚ`);
the algorithms only compare, divide and take maxima, so the control flow is
preserved exactly.  Python lists / numpy arrays are `List ℚ`.  The external
Pinecone index and the OpenAI embedding provider are parameters of the
embedded operations (the source calls them over the network).
-/

namespace XRay

/-- Maximum of a list of rationals, as `np.max` computes it on a non-empty
array (fold of the binary max over the elements).  `np.max` raises on an
empty array; every call site below guards non-emptiness, and `0` is a junk
value for that unreachable case. -/
def npMax : List ℚ → ℚ
  | [] => 0
  | x :: xs => xs.foldl max x

/-- `normalize_intensity` from `backend/spectroscopy.py`:
divide by the maximum unless the maximum is `≤ 0`, in which case the
input is returned unchanged. -/
def normalize_intensity (intensity : List ℚ) : List ℚ :=
  let max_val := npMax intensity
  if max_val ≤ 0 then intensity
  else intensity.map (fun x => x / max_val)

/-- `SpectrumFeature` from `backend/models.py` (the spec calls it
`PeakFeature`): one detected peak. -/
structure SpectrumFeature where
  peak_energy : ℚ
  peak_intensity : ℚ
  deriving DecidableEq, Repr

/-- `detect_peaks` from `backend/spectroscopy.py`.  The Python loop is
`for i in range(window, n - window)`, i.e. the indices
`window, …, n - window - 1`, which is `List.range' window (n - 2*window)`
(Python's `range` is empty when the upper bound is not above the lower, and
natural subtraction truncates the count the same way).  The slice
`intensity[i - window : i + window + 1]` is `drop (i - window)` then
`take (2*window + 1)`; since `window ≤ i` and `i + window < n` inside the
loop, no clamping occurs.  In-range indexing `intensity[i]` is `getD _ i 0`. -/
def detect_peaks (energy intensity : List ℚ) (window : ℕ) (threshold : ℚ) :
    List SpectrumFeature :=
  let n := intensity.length
  if n = 0 then []
  else
    (List.range' window (n - 2 * window)).filterMap (fun i =>
      let local_win := (intensity.drop (i - window)).take (2 * window + 1)
      if intensity.getD i 0 = npMax local_win ∧ threshold ≤ intensity.getD i 0 then
        some ⟨energy.getD i 0, intensity.getD i 0⟩
      else none)

/-- The samples `intensity[i-window .. i+window]` named by the spec: the
values at those `2*window + 1` indices. -/
def windowSamples (intensity : List ℚ) (window i : ℕ) : List ℚ :=
  (List.range' (i - window) (2 * window + 1)).map (fun j => intensity.getD j 0)

/-- The spec's peak predicate at index `i`: a full window fits on both
sides (`window ≤ i` and `i + window ≤ n - 1`), the sample is the maximum of
its window, and it reaches the threshold. -/
def specIsPeak (intensity : List ℚ) (window : ℕ) (threshold : ℚ) (i : ℕ) : Prop :=
  window ≤ i ∧ i + window < intensity.length ∧
    intensity.getD i 0 = npMax (windowSamples intensity window i) ∧
    threshold ≤ intensity.getD i 0

instance (intensity : List ℚ) (window : ℕ) (threshold : ℚ) (i : ℕ) :
    Decidable (specIsPeak intensity window threshold i) := by
  unfold specIsPeak; infer_instance

/-- A slice `drop a |> take b` that stays inside the list is the list of
values at indices `a, …, a + b - 1`. -/
lemma slice_eq_map_range' (l : List ℚ) (a b : ℕ) (h : a + b ≤ l.length) :
    (l.drop a).take b = (List.range' a b).map (fun j => l.getD j 0) := by
  apply List.ext_getElem
  · simp [List.length_take, List.length_drop]
    omega
  · intro j h1 h2
    have hj : j < b := by
      simp [List.length_take, List.length_drop] at h1
      omega
    have haj : a + j < l.length := by omega
    rw [List.getElem_take, List.getElem_drop]
    rw [List.getElem_map, List.getElem_range']
    simp only [Nat.one_mul]
    rw [List.getD_eq_getElem l 0 haj]

lemma foldl_max_le_iff (xs : List ℚ) (x c : ℚ) :
    xs.foldl max x ≤ c ↔ x ≤ c ∧ ∀ y ∈ xs, y ≤ c := by
  induction xs generalizing x with
  | nil => simp
  | cons a as ih =>
    simp only [List.foldl_cons, ih, max_le_iff, List.mem_cons]
    constructor
    · rintro ⟨⟨hx, ha⟩, hall⟩
      exact ⟨hx, fun y hy => hy.elim (fun h => h ▸ ha) (hall y)⟩
    · rintro ⟨hx, hall⟩
      exact ⟨⟨hx, hall a (Or.inl rfl)⟩, fun y hy => hall y (Or.inr hy)⟩

lemma le_foldl_max (xs : List ℚ) (x : ℚ) : x ≤ xs.foldl max x := by
  induction xs generalizing x with
  | nil => simp
  | cons a as ih => exact le_trans (le_max_left x a) (ih (max x a))

lemma foldl_max_mem (xs : List ℚ) (x : ℚ) : xs.foldl max x = x ∨ xs.foldl max x ∈ xs := by
  induction xs generalizing x with
  | nil => simp
  | cons a as ih =>
    simp only [List.foldl_cons, List.mem_cons]
    rcases ih (max x a) with h | h
    · rcases max_cases x a with ⟨he, _⟩ | ⟨he, _⟩
      · exact Or.inl (h.trans he)
      · exact Or.inr (Or.inl (h.trans he))
    · exact Or.inr (Or.inr h)

/-- `npMax` of a non-empty list is one of its elements. -/
lemma npMax_mem (l : List ℚ) (h : l ≠ []) : npMax l ∈ l := by
  cases l with
  | nil => exact absurd rfl h
  | cons x xs =>
    rcases foldl_max_mem xs x with h | h
    · simp [npMax, h]
    · simp [npMax, List.mem_cons, h]

/-- Every element of a non-empty list is at most its `npMax`. -/
lemma le_npMax (l : List ℚ) (y : ℚ) (hy : y ∈ l) : y ≤ npMax l := by
  cases l with
  | nil => cases hy
  | cons x xs =>
    rcases List.mem_cons.mp hy with h | h
    · exact h ▸ le_foldl_max xs x
    · unfold npMax
      by_contra hlt
      push_neg at hlt
      have := (foldl_max_le_iff xs x (xs.foldl max x)).mp le_rfl
      exact absurd (this.2 y h) (not_le.mpr hlt)

lemma filterMap_ite_eq_map_filter {α β : Type} (P : α → Prop) [DecidablePred P]
    (g : α → β) (l : List α) :
    (l.filterMap fun a => if P a then some (g a) else none) =
      (l.filter fun a => decide (P a)).map g := by
  induction l with
  | nil => rfl
  | cons a as ih =>
    by_cases h : P a <;> simp [List.filterMap_cons, List.filter_cons, h, ih]

/-- Splitting `range n` into the part left of the scan window, the scanned
indices `range' window (n - 2*window)`, and the part right of it. -/
lemma range_split (n window : ℕ) :
    List.range n =
      List.range' 0 (min window n) ++ List.range' (min window n) (n - 2 * window) ++
        List.range' (min window n + (n - 2 * window))
          (n - min window n - (n - 2 * window)) := by
  rw [List.range_eq_range']
  have h1 := List.range'_append (min window n) (n - 2 * window)
    (n - min window n - (n - 2 * window)) 1
  have h2 := List.range'_append 0 (min window n)
    ((n - min window n - (n - 2 * window)) + (n - 2 * window)) 1
  simp only [Nat.one_mul, Nat.zero_add] at h1 h2
  rw [List.append_assoc, h1, h2]
  congr 1
  omega

/-- The heart of the peak detector: `detect_peaks` is exactly the
spec-side map over the indices satisfying `specIsPeak`, in ascending
order. -/
lemma detect_peaks_char (energy intensity : List ℚ) (window : ℕ) (threshold : ℚ) :
    detect_peaks energy intensity window threshold =
      ((List.range intensity.length).filter
          (fun i => decide (specIsPeak intensity window threshold i))).map
        (fun i => ⟨energy.getD i 0, intensity.getD i 0⟩) := by
  set n := intensity.length with hn
  by_cases h0 : n = 0
  · simp [detect_peaks, ← hn, h0]
  · have hsplit := range_split n window
    rw [hsplit, List.filter_append, List.filter_append]
    have hleft : (List.range' 0 (min window n)).filter
        (fun i => decide (specIsPeak intensity window threshold i)) = [] := by
      rw [List.filter_eq_nil_iff]
      intro i hi
      have hmem := List.mem_range'_1.mp hi
      simp only [decide_eq_true_eq]
      intro hpk
      have := hpk.1
      omega
    have hright : (List.range' (min window n + (n - 2 * window))
          (n - min window n - (n - 2 * window))).filter
        (fun i => decide (specIsPeak intensity window threshold i)) = [] := by
      rw [List.filter_eq_nil_iff]
      intro i hi
      have hmem := List.mem_range'_1.mp hi
      simp only [decide_eq_true_eq]
      intro hpk
      have h1 := hpk.1
      have h2 := hpk.2.1
      omega
    rw [hleft, hright, List.nil_append, List.append_nil]
    have hmid : List.range' (min window n) (n - 2 * window) =
        List.range' window (n - 2 * window) := by
      rcases Nat.eq_zero_or_pos (n - 2 * window) with hB | hB
      · rw [hB, List.range'_zero, List.range'_zero]
      · have : min window n = window := by omega
        rw [this]
    rw [hmid]
    have hbody : detect_peaks energy intensity window threshold =
        (List.range' window (n - 2 * window)).filterMap (fun i =>
          if intensity.getD i 0 =
                npMax ((intensity.drop (i - window)).take (2 * window + 1)) ∧
              threshold ≤ intensity.getD i 0 then
            some (⟨energy.getD i 0, intensity.getD i 0⟩ : SpectrumFeature)
          else none) := by
      simp only [detect_peaks]
      rw [← hn, if_neg h0]
    rw [hbody, filterMap_ite_eq_map_filter]
    congr 1
    apply List.filter_congr
    intro i hi
    have hmem := List.mem_range'_1.mp hi
    have hB : 0 < n - 2 * window := by
      rcases Nat.eq_zero_or_pos (n - 2 * window) with hB0 | hB0
      · rw [hB0] at hi; simp at hi
      · exact hB0
    have hwle : window ≤ i := hmem.1
    have hiw : i + window < n := by omega
    rw [decide_eq_decide]
    have hslice : (intensity.drop (i - window)).take (2 * window + 1) =
        windowSamples intensity window i := by
      rw [windowSamples, slice_eq_map_range' intensity (i - window) (2 * window + 1)]
      omega
    unfold specIsPeak
    rw [hslice]
    rw [← hn]
    constructor
    · rintro ⟨hmax, hth⟩
      exact ⟨hwle, hiw, hmax, hth⟩
    · rintro ⟨_, _, hmax, hth⟩
      exact ⟨hmax, hth⟩

lemma foldl_max_div (m : ℚ) (hm : 0 < m) (xs : List ℚ) (x : ℚ) :
    (xs.map (fun y => y / m)).foldl max (x / m) = (xs.foldl max x) / m := by
  induction xs generalizing x with
  | nil => rfl
  | cons a as ih =>
    simp only [List.map_cons, List.foldl_cons]
    rw [max_div_div_right hm.le x a, ih]

/-- Dividing every element by a positive constant divides the maximum. -/
lemma npMax_map_div (l : List ℚ) (m : ℚ) (hm : 0 < m) (hne : l ≠ []) :
    npMax (l.map (fun y => y / m)) = npMax l / m := by
  cases l with
  | nil => exact absurd rfl hne
  | cons x xs => simpa [npMax] using foldl_max_div m hm xs x

lemma foldl_max_replicate (k : ℕ) (t : ℚ) :
    (List.replicate k t).foldl max t = t := by
  induction k with
  | zero => rfl
  | succ j ih => simpa [List.replicate_succ, max_self] using ih

lemma npMax_replicate (m : ℕ) (t : ℚ) (hm : 0 < m) :
    npMax (List.replicate m t) = t := by
  cases m with
  | zero => omega
  | succ k =>
    rw [List.replicate_succ]
    simpa [npMax] using foldl_max_replicate k t

lemma getD_replicate_of_lt (n i : ℕ) (t : ℚ) (h : i < n) :
    (List.replicate n t).getD i 0 = t := by
  rw [List.getD_eq_getElem _ _ (by simpa using h)]
  exact List.getElem_replicate t _

/-- **C1.** `detect_peaks` emits a feature `(energy[i], intensity[i])` for
exactly those indices `i` in `[window, n-1-window]` whose sample is the
maximum of the `2*window+1` samples `intensity[i-window .. i+window]` and
reaches the threshold, in ascending index order; indices within `window`
of either end are never emitted. -/
theorem detect_peaks_matches_spec (energy intensity : List ℚ) (window : ℕ)
    (threshold : ℚ) (hlen : energy.length = intensity.length) :
    detect_peaks energy intensity window threshold =
      ((List.range intensity.length).filter
          (fun i => decide (specIsPeak intensity window threshold i))).map
        (fun i => ⟨energy.getD i 0, intensity.getD i 0⟩) :=
  detect_peaks_char energy intensity window threshold

theorem detect_peaks_matches_spec_witness :
    List.length ([10, 20, 30] : List ℚ) = List.length ([0, 1, 0] : List ℚ) ∧
      detect_peaks [10, 20, 30] [0, 1, 0] 1 (1/2) =
        ((List.range (List.length ([0, 1, 0] : List ℚ))).filter
            (fun i => decide (specIsPeak [0, 1, 0] 1 (1/2) i))).map
          (fun i => ⟨List.getD [10, 20, 30] i 0, List.getD [0, 1, 0] i 0⟩) :=
  ⟨by decide, detect_peaks_matches_spec [10, 20, 30] [0, 1, 0] 1 (1/2) (by decide)⟩

/-- **C6.** On a non-empty sequence whose maximum is strictly positive,
`normalize_intensity` divides every element by that maximum, and the
maximum of the result is exactly `1`. -/
theorem normalize_intensity_pos_max (intensity : List ℚ)
    (hne : intensity ≠ []) (hpos : 0 < npMax intensity) :
    normalize_intensity intensity =
        intensity.map (fun x => x / npMax intensity) ∧
      npMax (normalize_intensity intensity) = 1 := by
  have hif : normalize_intensity intensity =
      intensity.map (fun x => x / npMax intensity) := by
    unfold normalize_intensity
    rw [if_neg (not_le.mpr hpos)]
  refine ⟨hif, ?_⟩
  rw [hif, npMax_map_div intensity _ hpos hne, div_self (ne_of_gt hpos)]

theorem normalize_intensity_pos_max_witness :
    ([1, 2] : List ℚ) ≠ [] ∧ 0 < npMax [1, 2] ∧
      (normalize_intensity [1, 2] = List.map (fun x => x / npMax [1, 2]) [1, 2] ∧
        npMax (normalize_intensity [1, 2]) = 1) :=
  ⟨by decide, by decide, normalize_intensity_pos_max [1, 2] (by decide) (by decide)⟩

/-- **C7.** On a non-empty sequence whose maximum is `≤ 0`,
`normalize_intensity` is the identity. -/
theorem normalize_intensity_nonpos_id (intensity : List ℚ)
    (hne : intensity ≠ []) (hnp : npMax intensity ≤ 0) :
    normalize_intensity intensity = intensity := by
  unfold normalize_intensity
  rw [if_pos hnp]

theorem normalize_intensity_nonpos_id_witness :
    ([-1, 0] : List ℚ) ≠ [] ∧ npMax [-1, 0] ≤ 0 ∧
      normalize_intensity [-1, 0] = [-1, 0] :=
  ⟨by decide, by decide, normalize_intensity_nonpos_id [-1, 0] (by decide) (by decide)⟩

/-- **C8.** When `n ≤ 2*window`, no index has a full window on both sides
and `detect_peaks` returns the empty sequence, for any threshold. -/
theorem detect_peaks_short_input (energy intensity : List ℚ) (window : ℕ)
    (threshold : ℚ) (h : intensity.length ≤ 2 * window) :
    detect_peaks energy intensity window threshold = [] := by
  simp only [detect_peaks]
  by_cases h0 : intensity.length = 0
  · rw [if_pos h0]
  · rw [if_neg h0]
    have hz : intensity.length - 2 * window = 0 := by omega
    rw [hz, List.range'_zero, List.filterMap_nil]

theorem detect_peaks_short_input_witness :
    List.length ([1, 1] : List ℚ) ≤ 2 * 1 ∧
      detect_peaks [5, 6] [1, 1] 1 0 = [] :=
  ⟨by decide, detect_peaks_short_input [5, 6] [1, 1] 1 0 (by decide)⟩

/-- **C9.** Tie preservation: on a constant sequence of length
`n > 2*window` in which every sample equals the threshold exactly,
`detect_peaks` returns one peak for every interior index
`window, …, n-1-window`. -/
theorem detect_peaks_tie_preservation (energy : List ℚ) (n window : ℕ) (t : ℚ)
    (hlen : energy.length = n) (hn : 2 * window < n) :
    detect_peaks energy (List.replicate n t) window t =
      (List.range' window (n - 2 * window)).map
        (fun i => ⟨energy.getD i 0, t⟩) := by
  rw [detect_peaks_char]
  have hfilter : (List.range (List.replicate n t).length).filter
      (fun i => decide (specIsPeak (List.replicate n t) window t i)) =
      List.range' window (n - 2 * window) := by
    rw [List.length_replicate, range_split n window, List.filter_append,
      List.filter_append]
    have hleft : (List.range' 0 (min window n)).filter
        (fun i => decide (specIsPeak (List.replicate n t) window t i)) = [] := by
      rw [List.filter_eq_nil_iff]
      intro i hi
      have hmem := List.mem_range'_1.mp hi
      simp only [decide_eq_true_eq]
      intro hpk
      have := hpk.1
      omega
    have hright : (List.range' (min window n + (n - 2 * window))
          (n - min window n - (n - 2 * window))).filter
        (fun i => decide (specIsPeak (List.replicate n t) window t i)) = [] := by
      rw [List.filter_eq_nil_iff]
      intro i hi
      have hmem := List.mem_range'_1.mp hi
      simp only [decide_eq_true_eq]
      intro hpk
      have h2 := hpk.2.1
      rw [List.length_replicate] at h2
      omega
    have hmin : min window n = window := by omega
    rw [hleft, hright, hmin, List.nil_append, List.append_nil]
    rw [List.filter_eq_self]
    intro i hi
    have hmem := List.mem_range'_1.mp hi
    have hiltn : i < n := by omega
    simp only [decide_eq_true_eq]
    have hwin : windowSamples (List.replicate n t) window i =
        List.replicate (2 * window + 1) t := by
      unfold windowSamples
      have : ∀ j ∈ List.range' (i - window) (2 * window + 1),
          (List.replicate n t).getD j 0 = t := by
        intro j hj
        have hjm := List.mem_range'_1.mp hj
        exact getD_replicate_of_lt n j t (by omega)
      rw [List.map_congr_left this]
      have := List.map_const (List.range' (i - window) (2 * window + 1)) t
      simpa using this
    refine ⟨hmem.1, ?_, ?_, ?_⟩
    · rw [List.length_replicate]; omega
    · rw [hwin, getD_replicate_of_lt n i t hiltn, npMax_replicate _ _ (by omega)]
    · rw [getD_replicate_of_lt n i t hiltn]
  rw [hfilter]
  apply List.map_congr_left
  intro i hi
  have hmem := List.mem_range'_1.mp hi
  rw [getD_replicate_of_lt n i t (by omega)]

theorem detect_peaks_tie_preservation_witness :
    List.length ([10, 20, 30] : List ℚ) = 3 ∧ 2 * 1 < 3 ∧
      detect_peaks [10, 20, 30] (List.replicate 3 (1/2)) 1 (1/2) =
        (List.range' 1 (3 - 2 * 1)).map
          (fun i => ⟨List.getD ([10, 20, 30] : List ℚ) i 0, 1/2⟩) :=
  ⟨by decide, by decide,
    detect_peaks_tie_preservation [10, 20, 30] 3 1 (1/2) (by decide) (by decide)⟩

/-! ## The Pinecone-backed RAG store (`backend/pinecone_rag.py`)

The store talks to two external services: the OpenAI embedding provider
(`embed_text`) and the Pinecone vector index.  Both are parameters of the
embedded operations.  `uuid.uuid4()` is a fresh-unique-id supply, realised
here as a counter threaded through the store, so ids are naturals. -/

/-- An embedding vector, as returned by the embedding provider. -/
abbrev Emb := List ℚ

/-- One match of a vector-index query: id, similarity score and metadata
(a key-value map), per the external index API. -/
structure VecMatch where
  id : ℕ
  score : ℚ
  metadata : List (String × String)
  deriving DecidableEq, Repr

/-- The response object of `index.query`, carrying its `.matches'` list. -/
structure QueryResponse where
  matches' : List VecMatch
  deriving DecidableEq, Repr

/-- A vector staged for `index.upsert`: id, values and metadata. -/
structure StoredVec where
  id : ℕ
  values : Emb
  metadata : List (String × String)
  deriving DecidableEq, Repr

/-- Modelled from the spec (§6 external collaborators): the state of the
external Pinecone index — per namespace, the vectors upserted into it.
The index itself is not code of this repository. -/
abbrev IndexState := List (String × List StoredVec)

/-- The vectors stored in a namespace (empty for an unknown namespace). -/
def nsVectors : IndexState → String → List StoredVec
  | [], _ => []
  | (m, vs) :: rest, ns => if m = ns then vs else nsVectors rest ns

/-- Modelled from the spec (§6): `index.upsert(vectors, namespace)` adds
the given vectors to the namespace in one call. -/
def insertVectors : IndexState → String → List StoredVec → IndexState
  | [], ns, vs => [(ns, vs)]
  | (m, old) :: rest, ns, vs =>
    if m = ns then (m, old ++ vs) :: rest
    else (m, old) :: insertVectors rest ns vs

lemma nsVectors_insertVectors (st : IndexState) (ns : String)
    (vs : List StoredVec) :
    nsVectors (insertVectors st ns vs) ns = nsVectors st ns ++ vs := by
  induction st with
  | nil => simp [insertVectors, nsVectors]
  | cons p rest ih =>
    obtain ⟨m, old⟩ := p
    by_cases h : m = ns
    · simp [insertVectors, nsVectors, h]
    · simp [insertVectors, nsVectors, h, ih]

/-- The in-process store object of `PineconeRAG`: the `enabled` flag, the
(remote) index state it is connected to, and the fresh-id counter
modelling `uuid.uuid4()`. -/
structure PineconeRAG where
  enabled : Bool
  state : IndexState
  ctr : ℕ
  deriving DecidableEq, Repr

/-- `PineconeRAG.__init__`: with an empty API key (`if not
PINECONE_API_KEY`) the store is permanently disabled and never connects;
otherwise it connects to the external index, whose current content is
`st`. -/
def PineconeRAG.init (apiKey : String) (st : IndexState) : PineconeRAG :=
  if apiKey = "" then { enabled := false, state := [], ctr := 0 }
  else { enabled := true, state := st, ctr := 0 }

/-- The external `index.query` call: from the committed index state, a
namespace, a query vector and the `top_k` argument, it either fails with a
backend exception or returns a response.  The scoring runs inside the
external service, so the function is a parameter of the embedding. -/
abbrev QueryFn := IndexState → String → Emb → ℕ → Except Unit QueryResponse

/-- The external embedding provider: `embed_text` on a list of texts. -/
abbrev EmbedFn := List String → List Emb

/-- The per-document skip decision of `upsert_docs`, exactly as in the
source: a failed query skips the doc (`except: continue`), and a
successful query skips it when it returned at least one match whose top
score is strictly greater than `0.99`. -/
def skipDoc : Except Unit QueryResponse → Bool
  | .error _ => true
  | .ok existing =>
    match existing.matches' with
    | top :: _ => decide ((99 : ℚ) / 100 < top.score)
    | [] => false

/-- The per-document loop of `upsert_docs`: walks `zip(docs, embeddings)`,
queries top-1 against the committed state `st` for each pair, skips per
`skipDoc`, and otherwise stages `{id, values, metadata: {text}}` with a
fresh id drawn from the counter.  Returns the staged vectors and the
advanced counter. -/
def upsertLoop (q : QueryFn) (st : IndexState) (ns : String) :
    List (String × Emb) → ℕ → List StoredVec × ℕ
  | [], ctr => ([], ctr)
  | (text, emb) :: rest, ctr =>
    if skipDoc (q st ns emb 1) then upsertLoop q st ns rest ctr
    else
      let r := upsertLoop q st ns rest (ctr + 1)
      (⟨ctr, emb, [("text", text)]⟩ :: r.1, r.2)

/-- `PineconeRAG.upsert_docs`: a no-op when the store is disabled or
`docs` is empty; otherwise embeds all docs, runs the dedup loop against
the current index state, and finally inserts all staged vectors into the
namespace in one `index.upsert` call (the call is skipped entirely when
nothing was staged). -/
def upsert_docs (q : QueryFn) (e : EmbedFn) (rag : PineconeRAG)
    (docs : List String) (ns : String) : PineconeRAG :=
  if rag.enabled = false ∨ docs = [] then rag
  else
    let embeddings := e docs
    let r := upsertLoop q rag.state ns (docs.zip embeddings) rag.ctr
    if r.1 = [] then { rag with ctr := r.2 }
    else { rag with state := insertVectors rag.state ns r.1, ctr := r.2 }

/-- External calls observable from `retrieve` (used to state that a
disabled store contacts neither the embedding provider nor the index). -/
inductive SideCall where
  | embedCall (texts : List String)
  | queryCall (ns : String) (v : Emb) (k : ℕ)
  deriving DecidableEq, Repr

/-- `match.metadata.get(key, dflt)` on the metadata key-value map. -/
def metaGet (md : List (String × String)) (key dflt : String) : String :=
  match md.find? (fun p => p.1 == key) with
  | some p => p.2
  | none => dflt

/-- `PineconeRAG.retrieve`: on a disabled store, immediately the empty
result, with no external calls.  Otherwise embed the query text
(`embed_text([query])[0]`, an error when the provider returns no vector),
query the index with `top_k = k`, and collect one `(text, id, score)`
triple per match in response order, with
`text = match.metadata.get("text", "")` (the Python loop appends to an
accumulator, hence the fold).  The `Except` layer carries the uncaught
exceptions of the source; the second component lists the external calls
made. -/
def retrieve (e : EmbedFn) (q : QueryFn) (rag : PineconeRAG)
    (query : String) (k : ℕ) (ns : String) :
    Except Unit (List (String × ℕ × ℚ)) × List SideCall :=
  if rag.enabled = false then (.ok [], [])
  else
    match e [query] with
    | [] => (.error (), [.embedCall [query]])
    | qemb :: _ =>
      match q rag.state ns qemb k with
      | .error _ => (.error (), [.embedCall [query], .queryCall ns qemb k])
      | .ok resp =>
        (.ok (resp.matches'.foldl
            (fun acc m => acc ++ [(metaGet m.metadata "text" "", m.id, m.score)])
            []),
          [.embedCall [query], .queryCall ns qemb k])

/-- Modelled from the spec (§6): the best match the external index returns
for a query vector, scored by an abstract similarity `sim` (the service
computes cosine similarity; only the comparison of scores matters to the
claims). -/
def bestMatch (sim : Emb → Emb → ℚ) (v : Emb) : List StoredVec → Option VecMatch
  | [] => none
  | s :: rest =>
    let m : VecMatch := ⟨s.id, sim s.values v, s.metadata⟩
    match bestMatch sim v rest with
    | none => some m
    | some m2 => some (if m.score < m2.score then m2 else m)

/-- Modelled from the spec (§6): a top-1 query backend answering from the
committed index state, never failing. -/
def modelQuery (sim : Emb → Emb → ℚ) : QueryFn := fun st ns v _k =>
  .ok ⟨(bestMatch sim v (nsVectors st ns)).toList⟩

/-- The spec's description of the staged vectors: one vector per kept
`(text, embedding)` pair, in order, with metadata `{text}` and fresh ids
assigned consecutively from the counter. -/
def stagedOf (ctr : ℕ) : List (String × Emb) → List StoredVec
  | [] => []
  | (text, emb) :: rest => ⟨ctr, emb, [("text", text)]⟩ :: stagedOf (ctr + 1) rest

/-- The spec's skip condition: the nearest-neighbor query succeeded and
returned a top match with similarity score strictly greater than `0.99`. -/
def specSkip (r : Except Unit QueryResponse) : Prop :=
  ∃ resp top rest, r = .ok resp ∧ resp.matches' = top :: rest ∧
    (99 : ℚ) / 100 < top.score

instance (r : Except Unit QueryResponse) : Decidable (specSkip r) :=
  match r with
  | .error _ => isFalse (by rintro ⟨resp, top, rest, h, -, -⟩; cases h)
  | .ok resp =>
    match hm : resp.matches' with
    | [] => isFalse (by
        rintro ⟨resp2, top, rest, h, hmm, -⟩
        injection h with h
        subst h
        rw [hm] at hmm
        cases hmm)
    | top :: rest =>
      if hs : (99 : ℚ) / 100 < top.score then
        isTrue ⟨resp, top, rest, rfl, hm, hs⟩
      else
        isFalse (by
          rintro ⟨resp2, top2, rest2, h, hmm, hs2⟩
          injection h with h
          subst h
          rw [hm] at hmm
          injection hmm with h1 h2
          subst h1
          exact hs hs2)

lemma skipDoc_eq_decide_specSkip (r : Except Unit QueryResponse)
    (resp : QueryResponse) (h : r = .ok resp) :
    skipDoc r = decide (specSkip r) := by
  subst h
  simp only [skipDoc]
  cases hm : resp.matches' with
  | nil =>
    have hns : ¬specSkip (Except.ok resp) := by
      rintro ⟨resp2, top, rest, he, hmm, -⟩
      injection he with he
      subst he
      rw [hm] at hmm
      cases hmm
    simp [hns]
  | cons top rest =>
    by_cases hs : (99 : ℚ) / 100 < top.score
    · have hsk : specSkip (Except.ok resp) := ⟨resp, top, rest, rfl, hm, hs⟩
      simp [hsk, hs]
    · have hns : ¬specSkip (Except.ok resp) := by
        rintro ⟨resp2, top2, rest2, he, hmm, hs2⟩
        injection he with he
        subst he
        rw [hm] at hmm
        injection hmm with h1 h2
        subst h1
        exact hs hs2
      simp [hns, hs]

/-- Closed form of the dedup loop: it stages, in order, exactly the
non-skipped pairs, with consecutive ids from the counter. -/
lemma upsertLoop_eq_stagedOf (q : QueryFn) (st : IndexState) (ns : String)
    (pairs : List (String × Emb)) (ctr : ℕ) :
    upsertLoop q st ns pairs ctr =
      (stagedOf ctr (pairs.filter (fun p => !(skipDoc (q st ns p.2 1)))),
        ctr + (pairs.filter (fun p => !(skipDoc (q st ns p.2 1)))).length) := by
  induction pairs generalizing ctr with
  | nil => simp [upsertLoop, stagedOf]
  | cons p rest ih =>
    obtain ⟨text, emb⟩ := p
    by_cases h : skipDoc (q st ns emb 1)
    · simp [upsertLoop, h, List.filter_cons, ih]
    · simp only [upsertLoop, h, Bool.false_eq_true, if_false, List.filter_cons,
        Bool.not_false, if_true, ih, stagedOf, Prod.mk.injEq, List.length_cons]
      exact ⟨trivial, by omega⟩

/-- Ids staged by `stagedOf` are the consecutive naturals from the
counter, hence pairwise distinct. -/
lemma stagedOf_ids (ctr : ℕ) (pairs : List (String × Emb)) :
    (stagedOf ctr pairs).map StoredVec.id = List.range' ctr pairs.length := by
  induction pairs generalizing ctr with
  | nil => rfl
  | cons p rest ih =>
    obtain ⟨text, emb⟩ := p
    simp [stagedOf, ih, List.range'_succ]

lemma foldl_append_eq_map {α β : Type} (f : α → β) (l : List α) (acc : List β) :
    l.foldl (fun acc2 a => acc2 ++ [f a]) acc = acc ++ l.map f := by
  induction l generalizing acc with
  | nil => simp
  | cons a as ih => simp [ih]

/-- **C2.** On an enabled store, `upsert_docs` skips a `(text, embedding)`
pair exactly when its nearest-neighbor query returns a top match scoring
strictly above `0.99` (a score of exactly `0.99` does not skip); every
other pair is staged, in order, with a fresh unique id and metadata
`{text}`, and after the whole batch is evaluated the staged vectors are
all in the namespace through the single final insert. -/
theorem upsert_docs_dedup (q : QueryFn) (e : EmbedFn) (rag : PineconeRAG)
    (docs : List String) (ns : String) (hen : rag.enabled = true)
    (hq : ∀ p ∈ docs.zip (e docs),
      ∃ resp, q rag.state ns p.2 1 = Except.ok resp) :
    nsVectors (upsert_docs q e rag docs ns).state ns =
      nsVectors rag.state ns ++
        stagedOf rag.ctr ((docs.zip (e docs)).filter
          (fun p => !(decide (specSkip (q rag.state ns p.2 1))))) ∧
      ((stagedOf rag.ctr ((docs.zip (e docs)).filter
          (fun p => !(decide (specSkip (q rag.state ns p.2 1)))))).map
        StoredVec.id).Nodup := by
  have hfilt : (docs.zip (e docs)).filter
        (fun p => !(skipDoc (q rag.state ns p.2 1))) =
      (docs.zip (e docs)).filter
        (fun p => !(decide (specSkip (q rag.state ns p.2 1)))) := by
    apply List.filter_congr
    intro p hp
    obtain ⟨resp, hresp⟩ := hq p hp
    rw [skipDoc_eq_decide_specSkip _ resp hresp]
  constructor
  · by_cases hd : docs = []
    · subst hd
      simp [upsert_docs, stagedOf]
    · have hcond : ¬(rag.enabled = false ∨ docs = []) := by
        simp [hen, hd]
      rw [← hfilt]
      simp only [upsert_docs, if_neg hcond, upsertLoop_eq_stagedOf]
      by_cases hnil : stagedOf rag.ctr ((docs.zip (e docs)).filter
          (fun p => !(skipDoc (q rag.state ns p.2 1)))) = []
      · simp [hnil]
      · simp [hnil, nsVectors_insertVectors]
  · rw [stagedOf_ids]
    exact List.nodup_range' _ _

/-- A query backend answering every query with one fixed-score match. -/
def constQuery (s : ℚ) : QueryFn := fun _ _ _ _ =>
  .ok ⟨[⟨5, s, []⟩]⟩

/-- An embedding provider mapping every text to the vector `[1]`. -/
def onesEmbed : EmbedFn := fun ds => ds.map (fun _ => [1])

/-- A concrete enabled store over an empty index. -/
def ragExample : PineconeRAG := ⟨true, [], 0⟩

theorem upsert_docs_dedup_witness :
    (ragExample.enabled = true ∧
      ∀ p ∈ (["a"] : List String).zip (onesEmbed ["a"]),
        ∃ resp, constQuery (99 / 100) ragExample.state "n" p.2 1 =
          Except.ok resp) ∧
      (nsVectors (upsert_docs (constQuery (99 / 100)) onesEmbed ragExample
            ["a"] "n").state "n" =
          nsVectors ragExample.state "n" ++
            stagedOf ragExample.ctr (((["a"] : List String).zip
                (onesEmbed ["a"])).filter
              (fun p => !(decide (specSkip
                (constQuery (99 / 100) ragExample.state "n" p.2 1))))) ∧
        ((stagedOf ragExample.ctr (((["a"] : List String).zip
              (onesEmbed ["a"])).filter
            (fun p => !(decide (specSkip
              (constQuery (99 / 100) ragExample.state "n" p.2 1)))))).map
          StoredVec.id).Nodup) :=
  ⟨⟨rfl, fun _ _ => ⟨⟨[⟨5, 99 / 100, []⟩]⟩, rfl⟩⟩,
    upsert_docs_dedup (constQuery (99 / 100)) onesEmbed ragExample ["a"] "n"
      rfl (fun _ _ => ⟨⟨[⟨5, 99 / 100, []⟩]⟩, rfl⟩)⟩

/-- **C3.** Dedup queries run against the index state as committed before
the batch's single final insert, so two documents of one batch never see
each other: two texts with identical embeddings upserted into an empty
namespace are both inserted, although their pairwise similarity is above
the `0.99` threshold. -/
theorem upsert_docs_no_intra_batch_dedup (sim : Emb → Emb → ℚ) (e : EmbedFn)
    (rag : PineconeRAG) (t1 t2 : String) (emb : Emb) (ns : String)
    (hen : rag.enabled = true) (hns : nsVectors rag.state ns = [])
    (hemb : e [t1, t2] = [emb, emb]) (hsim : (99 : ℚ) / 100 < sim emb emb) :
    nsVectors (upsert_docs (modelQuery sim) e rag [t1, t2] ns).state ns =
      [⟨rag.ctr, emb, [("text", t1)]⟩, ⟨rag.ctr + 1, emb, [("text", t2)]⟩] := by
  have hcond : ¬(rag.enabled = false ∨ ([t1, t2] : List String) = []) := by
    simp [hen]
  have hskip : skipDoc (modelQuery sim rag.state ns emb 1) = false := by
    simp [modelQuery, hns, bestMatch, skipDoc]
  simp only [upsert_docs, if_neg hcond, hemb, List.zip_cons_cons,
    List.zip_nil_right]
  rw [upsertLoop_eq_stagedOf]
  simp [hskip, stagedOf, nsVectors_insertVectors, hns, List.filter_cons]

theorem upsert_docs_no_intra_batch_dedup_witness :
    (ragExample.enabled = true ∧
      nsVectors ragExample.state "n" = [] ∧
      (fun _ => [[1], [1]] : EmbedFn) ["a", "b"] = [[1], [1]] ∧
      (99 : ℚ) / 100 < (fun _ _ => 1 : Emb → Emb → ℚ) [1] [1]) ∧
      nsVectors (upsert_docs (modelQuery (fun _ _ => 1)) (fun _ => [[1], [1]])
          ragExample ["a", "b"] "n").state "n" =
        [⟨0, [1], [("text", "a")]⟩, ⟨1, [1], [("text", "b")]⟩] :=
  ⟨⟨rfl, rfl, rfl, by norm_num⟩,
    upsert_docs_no_intra_batch_dedup (fun _ _ => 1) (fun _ => [[1], [1]])
      ragExample "a" "b" [1] "n" rfl rfl rfl (by norm_num)⟩

/-- **C4.** A store constructed with no backend credentials is permanently
disabled: `retrieve` returns the empty sequence, without error and with no
call to the embedding provider or the index, and `upsert_docs` returns the
store unchanged. -/
theorem disabled_store_no_ops (st : IndexState) (e : EmbedFn) (q : QueryFn)
    (query : String) (k : ℕ) (ns ns2 : String) (docs : List String) :
    (PineconeRAG.init "" st).enabled = false ∧
      retrieve e q (PineconeRAG.init "" st) query k ns = (Except.ok [], []) ∧
      upsert_docs q e (PineconeRAG.init "" st) docs ns2 =
        PineconeRAG.init "" st := by
  refine ⟨by simp [PineconeRAG.init], ?_, ?_⟩
  · simp [retrieve, PineconeRAG.init]
  · simp [upsert_docs, PineconeRAG.init]

/-- A query backend that always fails. -/
def failQuery : QueryFn := fun _ _ _ _ => .error ()

/-- **C5.** If the dedup query for one document of the batch fails, that
document alone is dropped — neither staged nor inserted nor retried — and
the rest of the batch stages and inserts exactly as if the document were
absent. -/
theorem upsert_docs_query_failure_skips (q : QueryFn) (e : EmbedFn)
    (rag : PineconeRAG) (docs : List String) (ns : String)
    (p1 p2 : List (String × Emb)) (text : String) (emb : Emb)
    (hen : rag.enabled = true)
    (hzip : docs.zip (e docs) = p1 ++ (text, emb) :: p2)
    (herr : q rag.state ns emb 1 = Except.error ()) :
    nsVectors (upsert_docs q e rag docs ns).state ns =
      nsVectors rag.state ns ++
        (upsertLoop q rag.state ns (p1 ++ p2) rag.ctr).1 := by
  have hd : docs ≠ [] := by
    intro h
    subst h
    simp at hzip
  have hcond : ¬(rag.enabled = false ∨ docs = []) := by simp [hen, hd]
  have hskip : skipDoc (q rag.state ns emb 1) = true := by rw [herr]; rfl
  have hloop : upsertLoop q rag.state ns (docs.zip (e docs)) rag.ctr =
      upsertLoop q rag.state ns (p1 ++ p2) rag.ctr := by
    rw [hzip, upsertLoop_eq_stagedOf, upsertLoop_eq_stagedOf,
      List.filter_append, List.filter_append, List.filter_cons]
    simp [hskip]
  simp only [upsert_docs, if_neg hcond, hloop]
  by_cases hnil : (upsertLoop q rag.state ns (p1 ++ p2) rag.ctr).1 = []
  · simp [hnil]
  · simp [hnil, nsVectors_insertVectors]

theorem upsert_docs_query_failure_skips_witness :
    (ragExample.enabled = true ∧
      (["a"] : List String).zip (onesEmbed ["a"]) =
        [] ++ ("a", ([1] : Emb)) :: [] ∧
      failQuery ragExample.state "n" [1] 1 = Except.error ()) ∧
      nsVectors (upsert_docs failQuery onesEmbed ragExample ["a"] "n").state
          "n" =
        nsVectors ragExample.state "n" ++
          (upsertLoop failQuery ragExample.state "n" ([] ++ [])
            ragExample.ctr).1 :=
  ⟨⟨rfl, rfl, rfl⟩,
    upsert_docs_query_failure_skips failQuery onesEmbed ragExample ["a"] "n"
      [] [] "a" [1] rfl rfl rfl⟩

/-- **C10.** On an enabled store, `retrieve` returns exactly one
`(text, id, score)` triple per match of the index's response, in response
order, where `text` is the match's stored `"text"` metadata value and the
empty string when that key is absent — a match without metadata yields
`""` rather than an error. -/
theorem retrieve_maps_matches (e : EmbedFn) (q : QueryFn) (rag : PineconeRAG)
    (query : String) (k : ℕ) (ns : String) (qemb : Emb) (tl : List Emb)
    (resp : QueryResponse) (hen : rag.enabled = true)
    (hemb : e [query] = qemb :: tl)
    (hq : q rag.state ns qemb k = Except.ok resp) :
    retrieve e q rag query k ns =
      (Except.ok (resp.matches'.map
          (fun m => (metaGet m.metadata "text" "", m.id, m.score))),
        [SideCall.embedCall [query], SideCall.queryCall ns qemb k]) := by
  simp only [retrieve, hen, hemb, hq]
  rw [foldl_append_eq_map]
  simp

/-- A query backend answering with a single metadata-less match. -/
def noMetaQuery : QueryFn := fun _ _ _ _ =>
  .ok ⟨[⟨7, 1 / 2, []⟩]⟩

theorem retrieve_maps_matches_witness :
    (ragExample.enabled = true ∧
      onesEmbed ["q"] = ([1] : Emb) :: [] ∧
      noMetaQuery ragExample.state "n" [1] 3 =
        Except.ok ⟨[⟨7, 1 / 2, []⟩]⟩) ∧
      retrieve onesEmbed noMetaQuery ragExample "q" 3 "n" =
        (Except.ok [("", 7, 1 / 2)],
          [SideCall.embedCall ["q"], SideCall.queryCall "n" [1] 3]) :=
  ⟨⟨rfl, rfl, rfl⟩,
    retrieve_maps_matches onesEmbed noMetaQuery ragExample "q" 3 "n" [1] []
      ⟨[⟨7, 1 / 2, []⟩]⟩ rfl rfl rfl⟩

end XRay
